import Mathlib

set_option maxHeartbeats 1000000

namespace SysprogCompiler

/-- Error kinds produced by the buffer operations, mirroring the
`std::io::ErrorKind` values used in src/buffer.rs. -/
inductive IOErr where
  | endOfInput
  | invalidInput
  | permissionDenied
  | notFound
deriving DecidableEq

instance : DecidableEq (Except IOErr Nat) := fun a b =>
  match a, b with
  | Except.ok x, Except.ok y =>
      if h : x = y then Decidable.isTrue (by rw [h]) else Decidable.isFalse (by simp [h])
  | Except.ok _, Except.error _ => Decidable.isFalse (by simp)
  | Except.error _, Except.ok _ => Decidable.isFalse (by simp)
  | Except.error x, Except.error y =>
      if h : x = y then Decidable.isTrue (by rw [h]) else Decidable.isFalse (by simp [h])

/-- Shallow embedding of `CharBuffer<R>` (src/buffer.rs).  The polymorphic `Read`
source is modelled as the list of bytes it has not yet produced; a `read` into a
chunk of size `chunkSize` returns `min chunkSize source.length` bytes, which is
the behaviour of an in-memory reader. -/
@[ext]
structure CharBuffer where
  chunkSize : Nat
  source : List Nat
  left : List Nat
  right : List Nat
  consumed : Nat
  loaded : Nat
  withdrawn : Nat
deriving DecidableEq

namespace CharBuffer

/-- `CharBuffer::new`.  The `chunk_size < 1` panic of the original is modelled
by the `1 ≤ chunkSize` hypotheses carried by the theorems below. -/
def new (source : List Nat) (chunkSize : Nat) : CharBuffer where
  chunkSize := chunkSize
  source := source
  left := List.replicate chunkSize 0
  right := List.replicate chunkSize 0
  consumed := 0
  loaded := 0
  withdrawn := 0

/-- `CharBuffer::capacity`. -/
def capacity (s : CharBuffer) : Nat := s.chunkSize * 2

/-- `CharBuffer::position`. -/
def position (s : CharBuffer) : Nat := s.consumed % s.capacity

/-- `CharBuffer::load_chunk`: fills the half selected by the current position
with up to `chunkSize` fresh source bytes and returns how many were read. -/
def loadChunk (s : CharBuffer) : Nat × CharBuffer :=
  if s.position < s.chunkSize then
    (min s.chunkSize s.source.length,
     { s with
        left := s.source.take (min s.chunkSize s.source.length) ++
          s.left.drop (min s.chunkSize s.source.length),
        source := s.source.drop (min s.chunkSize s.source.length) })
  else
    (min s.chunkSize s.source.length,
     { s with
        right := s.source.take (min s.chunkSize s.source.length) ++
          s.right.drop (min s.chunkSize s.source.length),
        source := s.source.drop (min s.chunkSize s.source.length) })

/-- `CharBuffer::read_position`. -/
def readPosition (s : CharBuffer) (p : Nat) : Except IOErr Nat :=
  if s.capacity ≤ p then
    Except.error IOErr.notFound
  else if s.position < s.chunkSize then
    Except.ok (s.left.getD p 0)
  else
    Except.ok (s.right.getD (p % s.chunkSize) 0)

/-- `CharBuffer::take_byte`. -/
def takeByte (s : CharBuffer) : Except IOErr Nat × CharBuffer :=
  let p := s.position
  let s1 :=
    if s.withdrawn = 0 ∧ (p = 0 ∨ p = s.chunkSize) then
      let r := s.loadChunk
      { r.2 with loaded := r.2.loaded + r.1 }
    else s
  if s1.loaded ≤ s1.consumed then
    (Except.error IOErr.endOfInput, s1)
  else
    let s2 := if 0 < s1.withdrawn then { s1 with withdrawn := s1.withdrawn - 1 } else s1
    match s2.readPosition p with
    | Except.error e => (Except.error e, s2)
    | Except.ok b => (Except.ok b, { s2 with consumed := s2.consumed + 1 })

/-- `CharBuffer::take_char` (the returned character is represented by its code
point, which for the accepted ASCII range equals the byte value). -/
def takeChar (s : CharBuffer) : Except IOErr Nat × CharBuffer :=
  match s.takeByte with
  | (Except.ok b, s') =>
      if b < 128 then (Except.ok b, s') else (Except.error IOErr.invalidInput, s')
  | (Except.error e, s') => (Except.error e, s')

/-- The per-step loop of `CharBuffer::take_back`. -/
def takeBackLoop : Nat → CharBuffer → Except IOErr Nat × CharBuffer
  | 0, s => (Except.ok s.position, s)
  | m + 1, s =>
    if s.chunkSize < s.withdrawn + 1 then
      (Except.error IOErr.permissionDenied, s)
    else
      takeBackLoop m { s with consumed := s.consumed - 1, withdrawn := s.withdrawn + 1 }

/-- `CharBuffer::take_back`. -/
def takeBack (s : CharBuffer) (amount : Nat) : Except IOErr Nat × CharBuffer :=
  if s.consumed < amount then
    (Except.error IOErr.permissionDenied, s)
  else if s.chunkSize < amount then
    (Except.error IOErr.permissionDenied, s)
  else
    takeBackLoop amount s

/-- Iterate `take_byte` a given number of times, collecting the results. -/
def takeN : Nat → CharBuffer → List (Except IOErr Nat) × CharBuffer
  | 0, s => ([], s)
  | n + 1, s =>
    let r := s.takeByte
    let q := takeN n r.2
    (r.1 :: q.1, q.2)

end CharBuffer

/-- States reachable from a freshly constructed buffer through the public
operations, whether those calls succeed or fail. -/
inductive Reachable (full : List Nat) (c : Nat) : CharBuffer → Prop where
  | base : Reachable full c (CharBuffer.new full c)
  | byteStep {s : CharBuffer} : Reachable full c s → Reachable full c s.takeByte.2
  | charStep {s : CharBuffer} : Reachable full c s → Reachable full c s.takeChar.2
  | backStep {s : CharBuffer} (a : Nat) :
      Reachable full c s → Reachable full c (s.takeBack a).2

/-- The buffer slot belonging to stream offset `i` holds the stream byte `i`. -/
def SlotOK (full : List Nat) (s : CharBuffer) (i : Nat) : Prop :=
  (if i % s.capacity < s.chunkSize then
     s.left.getD (i % s.capacity) 0
   else
     s.right.getD (i % s.capacity % s.chunkSize) 0) = full.getD i 0

/-- Invariant tying a buffer state to the full byte stream `full` it was
constructed over with chunk size `c`. -/
structure Inv (full : List Nat) (c : Nat) (s : CharBuffer) : Prop where
  chunk_eq : s.chunkSize = c
  chunk_pos : 1 ≤ c
  left_len : s.left.length = c
  right_len : s.right.length = c
  src_eq : s.source = full.drop s.loaded
  loaded_le : s.loaded ≤ full.length
  hw_le : s.consumed + s.withdrawn ≤ s.loaded
  wd_le : s.withdrawn ≤ c
  gap : s.loaded + 1 ≤ s.consumed + s.withdrawn + c ∨ s.loaded = s.consumed + s.withdrawn
  mult : s.loaded % c = 0 ∨ s.loaded = full.length
  content : ∀ i : Nat, i < s.loaded → s.loaded ≤ i + 2 * c → SlotOK full s i

open CharBuffer

/-- A residue modulo `c * 2` is `0` or `c` exactly when the underlying number is
divisible by `c`. -/
theorem boundary_iff (c x : Nat) (hc : 1 ≤ c) :
    (x % (c * 2) = 0 ∨ x % (c * 2) = c) ↔ x % c = 0 := by
  have hdvd : c ∣ c * 2 := ⟨2, rfl⟩
  have hmm : x % (c * 2) % c = x % c := Nat.mod_mod_of_dvd x hdvd
  constructor
  · rintro (h | h) <;> rw [← hmm, h] <;> simp
  · intro h
    have h2 : x % (c * 2) % c = 0 := by rw [hmm, h]
    obtain ⟨k, hk⟩ := Nat.dvd_of_mod_eq_zero h2
    have hlt : x % (c * 2) < c * 2 := Nat.mod_lt _ (by omega)
    have hk2 : k < 2 := by
      by_contra hcon
      have : c * 2 ≤ c * k := Nat.mul_le_mul_left c (by omega)
      omega
    have : k = 0 ∨ k = 1 := by omega
    rcases this with h0 | h1
    · left; rw [hk, h0, Nat.mul_zero]
    · right; rw [hk, h1, Nat.mul_one]

/-- Writing `n ≤ c` fresh bytes at the front of the half that starts at the
`c`-aligned offset `a` cannot touch the slot of any already-loaded offset
`i < a` that is still within the two-chunk window after the write: if `i` maps
into the same half, its in-half index is at least `n`. -/
theorem load_no_overwrite (c n a i : Nat) (hc : 1 ≤ c)
    (hdvd : a % c = 0) (hn : n ≤ c) (h1 : i < a) (h2 : a + n ≤ i + 2 * c)
    (hsame : (i % (c * 2) < c ↔ a % (c * 2) < c)) : n ≤ i % c := by
  obtain ⟨q, r, hi, hr⟩ : ∃ q r, i = c * 2 * q + r ∧ r < c * 2 :=
    ⟨i / (c * 2), i % (c * 2), (Nat.div_add_mod i (c * 2)).symm, Nat.mod_lt _ (by omega)⟩
  have hiM : i % (c * 2) = r := by
    rw [hi, Nat.mul_add_mod, Nat.mod_eq_of_lt hr]
  have hic : i % c = r % c := by
    rw [← Nat.mod_mod_of_dvd i ⟨2, rfl⟩, hiM]
  obtain ⟨Q, hQ⟩ : ∃ Q, a = c * 2 * Q + a % (c * 2) :=
    ⟨a / (c * 2), (Nat.div_add_mod a (c * 2)).symm⟩
  have hpa : a % (c * 2) = 0 ∨ a % (c * 2) = c := (boundary_iff c a hc).mpr hdvd
  have hpa' : a % (c * 2) ≤ c := by rcases hpa with h | h <;> omega
  rw [hiM] at hsame
  have hqQ : q ≤ Q := by
    by_contra hcon
    have hmono : c * 2 * (Q + 1) ≤ c * 2 * q := Nat.mul_le_mul_left (c * 2) (by omega)
    have hexp : c * 2 * (Q + 1) = c * 2 * Q + c * 2 := by ring
    omega
  have hQq : Q ≤ q + 1 := by
    by_contra hcon
    have hmono : c * 2 * (q + 2) ≤ c * 2 * Q := Nat.mul_le_mul_left (c * 2) (by omega)
    have hexp : c * 2 * (q + 2) = c * 2 * q + c * 2 + c * 2 := by ring
    omega
  have hcase : Q = q ∨ Q = q + 1 := by omega
  rw [hic]
  rcases hcase with hE | hE <;> subst hE
  · -- same two-chunk block: being in the same half contradicts `i < a`
    rcases hpa with hp | hp <;> rw [hp] at hQ hsame
    · omega
    · have hrlt : r < c := by omega
      exact absurd (hsame.mp hrlt) (lt_irrefl c)
  · -- `a` sits one block above `i`
    have hexp : c * 2 * (q + 1) = c * 2 * q + c * 2 := by ring
    rcases hpa with hp | hp <;> rw [hp] at hQ hsame
    · -- the half being written starts at a multiple of `2c`
      have hrlt : r < c := hsame.mpr (by omega)
      rw [Nat.mod_eq_of_lt hrlt]
      omega
    · -- the half being written starts at an odd multiple of `c`
      have hge : c ≤ r := le_of_not_lt (fun hlt => absurd (hsame.mp hlt) (lt_irrefl c))
      rw [Nat.mod_eq_sub_mod hge, Nat.mod_eq_of_lt (by omega)]
      omega

theorem getD_drop (l : List Nat) (m k : Nat) : (l.drop m).getD k 0 = l.getD (m + k) 0 := by
  rw [List.getD_eq_getElem?_getD, List.getD_eq_getElem?_getD, List.getElem?_drop]

theorem getD_take (l : List Nat) (m k : Nat) (h : k < m) :
    (l.take m).getD k 0 = l.getD k 0 := by
  rw [List.getD_eq_getElem?_getD, List.getD_eq_getElem?_getD, List.getElem?_take, if_pos h]

theorem mod_double_eq_mod (c i : Nat) (h : i % (c * 2) < c) : i % (c * 2) = i % c := by
  rw [← Nat.mod_mod_of_dvd i (⟨2, rfl⟩ : c ∣ c * 2), Nat.mod_eq_of_lt h]

theorem mod_add_small (m a t : Nat) (h : a % m + t < m) : (a + t) % m = a % m + t := by
  have ht : t < m := by omega
  rw [Nat.add_mod, Nat.mod_eq_of_lt ht, Nat.mod_eq_of_lt h]

/-- Two distinct multiples of `c` are at least `c` apart. -/
theorem dvd_squeeze (c a b : Nat) (ha : a % c = 0) (hb : b % c = 0)
    (h1 : a < b) (h2 : b < a + c) : False := by
  obtain ⟨x, hx⟩ := Nat.dvd_of_mod_eq_zero ha
  obtain ⟨y, hy⟩ := Nat.dvd_of_mod_eq_zero hb
  have hxy : x < y := by
    by_contra hcon
    have : c * y ≤ c * x := Nat.mul_le_mul_left c (by omega)
    omega
  have hstep : c * (x + 1) ≤ c * y := Nat.mul_le_mul_left c (by omega)
  have hexp : c * (x + 1) = c * x + c := by ring
  omega

/-- `SlotOK` only looks at the chunk geometry and contents. -/
theorem slotOK_of_fields {full : List Nat} {s s' : CharBuffer} (i : Nat)
    (hcs : s'.chunkSize = s.chunkSize) (hl : s'.left = s.left) (hr : s'.right = s.right) :
    SlotOK full s i ↔ SlotOK full s' i := by
  unfold SlotOK capacity
  rw [hcs, hl, hr]

theorem loadChunk_fst (s : CharBuffer) :
    s.loadChunk.1 = min s.chunkSize s.source.length := by
  unfold loadChunk
  split <;> rfl

theorem loadChunk_snd_left (s : CharBuffer) (h : s.position < s.chunkSize) :
    s.loadChunk.2 = { s with
      left := s.source.take (min s.chunkSize s.source.length) ++
        s.left.drop (min s.chunkSize s.source.length),
      source := s.source.drop (min s.chunkSize s.source.length) } := by
  unfold loadChunk
  rw [if_pos h]

theorem loadChunk_snd_right (s : CharBuffer) (h : ¬ s.position < s.chunkSize) :
    s.loadChunk.2 = { s with
      right := s.source.take (min s.chunkSize s.source.length) ++
        s.right.drop (min s.chunkSize s.source.length),
      source := s.source.drop (min s.chunkSize s.source.length) } := by
  unfold loadChunk
  rw [if_neg h]

theorem loadChunk_of_nil (s : CharBuffer) (h : s.source = []) : s.loadChunk = (0, s) := by
  have hmin : min s.chunkSize s.source.length = 0 := by rw [h]; simp
  unfold loadChunk
  split <;> rw [hmin] <;> simp

theorem inv_new (full : List Nat) (c : Nat) (hc : 1 ≤ c) :
    Inv full c (CharBuffer.new full c) := by
  refine ⟨rfl, hc, ?_, ?_, ?_, ?_, ?_, ?_, ?_, ?_, ?_⟩ <;>
    simp [CharBuffer.new]

theorem takeByte_eoi {full : List Nat} {c : Nat} {s : CharBuffer}
    (h : Inv full c s) (hL : full.length ≤ s.consumed) :
    s.takeByte = (Except.error IOErr.endOfInput, s) := by
  have hcl : s.loaded ≤ s.consumed := le_trans h.loaded_le hL
  have hwle := h.hw_le
  have hLle := h.loaded_le
  have hsrc : s.source = [] := by
    rw [h.src_eq]
    exact List.drop_eq_nil_of_le (by omega)
  have hload : s.loadChunk = (0, s) := loadChunk_of_nil s hsrc
  unfold takeByte
  simp only [hload]
  have hbr :
      (if s.withdrawn = 0 ∧ (s.position = 0 ∨ s.position = s.chunkSize) then
        { s with loaded := s.loaded + 0 } else s) = s := by
    split <;> rfl
  rw [hbr, if_pos hcl]

/-- After a boundary refill the whole live two-chunk window (old surviving
bytes plus the freshly loaded ones) is correctly slotted. -/
theorem postload_content {full : List Nat} {c : Nat} {s : CharBuffer} (h : Inv full c s)
    (hcl : s.consumed = s.loaded)
    (hb : s.position = 0 ∨ s.position = s.chunkSize) :
    ∀ i : Nat,
      i < s.loaded + min s.chunkSize s.source.length →
      s.loaded + min s.chunkSize s.source.length ≤ i + 2 * c →
      SlotOK full s.loadChunk.2 i := by
  have hc : 1 ≤ c := h.chunk_pos
  have hck : s.chunkSize = c := h.chunk_eq
  have hpos_eq : s.position = s.loaded % (c * 2) := by
    unfold position capacity
    rw [hck, hcl]
  rw [hpos_eq, hck] at hb
  have hdvd : s.loaded % c = 0 := (boundary_iff c s.loaded hc).mp hb
  have hnsrc : min c s.source.length ≤ s.source.length := Nat.min_le_right _ _
  have hnle : min c s.source.length ≤ c := Nat.min_le_left _ _
  have hdlen : (s.source.take (min c s.source.length)).length = min c s.source.length := by
    rw [List.length_take]
    exact min_eq_left hnsrc
  intro i hi1 hi2
  rw [hck] at hi1 hi2
  rcases hb with hb0 | hbc
  · -- the left half is the one being written
    have hposlt : s.position < s.chunkSize := by rw [hpos_eq, hb0, hck]; omega
    rw [loadChunk_snd_left s hposlt]
    unfold SlotOK capacity
    dsimp only
    rw [hck]
    by_cases hnew : s.loaded ≤ i
    · -- freshly loaded byte
      have ht : i - s.loaded < min c s.source.length := by omega
      have hieq : i = s.loaded + (i - s.loaded) := by omega
      have hms := mod_add_small (c * 2) s.loaded (i - s.loaded) (by rw [hb0]; omega)
      rw [hb0, ← hieq] at hms
      have hmod : i % (c * 2) = i - s.loaded := by omega
      rw [hmod, if_pos (by omega : i - s.loaded < c)]
      rw [List.getD_append _ _ _ _ (by rw [hdlen]; omega)]
      rw [getD_take _ _ _ ht, h.src_eq, getD_drop]
      congr 1
      omega
    · -- previously loaded byte outside the freshly written prefix
      push_neg at hnew
      have hold := h.content i (by omega) (by omega)
      unfold SlotOK capacity at hold
      rw [hck] at hold
      by_cases hhalf : i % (c * 2) < c
      · have hsame : (i % (c * 2) < c ↔ s.loaded % (c * 2) < c) :=
          iff_of_true hhalf (by rw [hb0]; omega)
        have hidx : min c s.source.length ≤ i % c :=
          load_no_overwrite c _ s.loaded i hc hdvd hnle hnew (by omega) hsame
        have hmm : i % (c * 2) = i % c := mod_double_eq_mod c i hhalf
        rw [if_pos hhalf, hmm] at hold ⊢
        rw [List.getD_append_right _ _ _ _ (by rw [hdlen]; exact hidx)]
        rw [hdlen, getD_drop]
        have heq : min c s.source.length + (i % c - min c s.source.length) = i % c := by
          omega
        rw [heq]
        exact hold
      · rw [if_neg hhalf] at hold ⊢
        exact hold
  · -- the right half is the one being written
    have hposge : ¬ s.position < s.chunkSize := by rw [hpos_eq, hbc, hck]; omega
    rw [loadChunk_snd_right s hposge]
    unfold SlotOK capacity
    dsimp only
    rw [hck]
    by_cases hnew : s.loaded ≤ i
    · -- freshly loaded byte
      have ht : i - s.loaded < min c s.source.length := by omega
      have hieq : i = s.loaded + (i - s.loaded) := by omega
      have hms := mod_add_small (c * 2) s.loaded (i - s.loaded) (by rw [hbc]; omega)
      rw [hbc, ← hieq] at hms
      rw [hms, if_neg (by omega : ¬ c + (i - s.loaded) < c)]
      have hidx : (c + (i - s.loaded)) % c = i - s.loaded := by
        rw [Nat.add_mod_left]
        exact Nat.mod_eq_of_lt (by omega)
      rw [hidx]
      rw [List.getD_append _ _ _ _ (by rw [hdlen]; omega)]
      rw [getD_take _ _ _ ht, h.src_eq, getD_drop]
      congr 1
      omega
    · -- previously loaded byte outside the freshly written prefix
      push_neg at hnew
      have hold := h.content i (by omega) (by omega)
      unfold SlotOK capacity at hold
      rw [hck] at hold
      by_cases hhalf : i % (c * 2) < c
      · rw [if_pos hhalf] at hold ⊢
        exact hold
      · have hsame : (i % (c * 2) < c ↔ s.loaded % (c * 2) < c) :=
          iff_of_false hhalf (by rw [hbc]; omega)
        have hidx : min c s.source.length ≤ i % c :=
          load_no_overwrite c _ s.loaded i hc hdvd hnle hnew (by omega) hsame
        have hmm : i % (c * 2) % c = i % c := Nat.mod_mod_of_dvd i ⟨2, rfl⟩
        rw [if_neg hhalf, hmm] at hold ⊢
        rw [List.getD_append_right _ _ _ _ (by rw [hdlen]; exact hidx)]
        rw [hdlen, getD_drop]
        have heq : min c s.source.length + (i % c - min c s.source.length) = i % c := by
          omega
        rw [heq]
        exact hold

theorem loadChunk_chunkSize (s : CharBuffer) : s.loadChunk.2.chunkSize = s.chunkSize := by
  unfold loadChunk
  split <;> rfl

theorem loadChunk_consumed (s : CharBuffer) : s.loadChunk.2.consumed = s.consumed := by
  unfold loadChunk
  split <;> rfl

theorem loadChunk_loaded (s : CharBuffer) : s.loadChunk.2.loaded = s.loaded := by
  unfold loadChunk
  split <;> rfl

theorem loadChunk_withdrawn (s : CharBuffer) : s.loadChunk.2.withdrawn = s.withdrawn := by
  unfold loadChunk
  split <;> rfl

theorem loadChunk_source (s : CharBuffer) :
    s.loadChunk.2.source = s.source.drop (min s.chunkSize s.source.length) := by
  unfold loadChunk
  split <;> rfl

theorem loadChunk_len {full : List Nat} {c : Nat} {s : CharBuffer} (h : Inv full c s) :
    s.loadChunk.2.left.length = c ∧ s.loadChunk.2.right.length = c := by
  have hll := h.left_len
  have hrl := h.right_len
  have hck := h.chunk_eq
  unfold loadChunk
  split <;> dsimp only <;> constructor <;>
    first
      | assumption
      | (rw [List.length_append, List.length_take, List.length_drop]; omega)

/-- Advancing the cursor over an already-loaded byte preserves the invariant. -/
theorem inv_advance {full : List Nat} {c : Nat} {s : CharBuffer}
    (h : Inv full c s) (hsucc : s.consumed < s.loaded) :
    Inv full c { s with consumed := s.consumed + 1, withdrawn := s.withdrawn - 1 } := by
  have hw := h.wd_le
  have hhw := h.hw_le
  refine ⟨h.chunk_eq, h.chunk_pos, h.left_len, h.right_len, h.src_eq, h.loaded_le,
    ?_, ?_, ?_, h.mult, ?_⟩
  · dsimp only
    omega
  · dsimp only
    omega
  · dsimp only
    rcases h.gap with hg | hg
    · left; omega
    · rcases Nat.eq_zero_or_pos s.withdrawn with h0 | h0
      · left; omega
      · right; omega
  · intro i h1 h2
    exact (slotOK_of_fields i rfl rfl rfl).mp (h.content i h1 h2)

/-- When no (effective) refill happens, a successful `take_byte` just returns the
slotted byte and advances the cursor. -/
theorem takeByte_noload {full : List Nat} {c : Nat} {s : CharBuffer}
    (h : Inv full c s) (hsucc : s.consumed < s.loaded)
    (hbr : (if s.withdrawn = 0 ∧ (s.position = 0 ∨ s.position = s.chunkSize) then
        { s.loadChunk.2 with loaded := s.loadChunk.2.loaded + s.loadChunk.1 } else s) = s) :
    s.takeByte = (Except.ok (full.getD s.consumed 0),
      if 0 < s.withdrawn then
        { s with consumed := s.consumed + 1, withdrawn := s.withdrawn - 1 }
      else { s with consumed := s.consumed + 1 }) := by
  have hc : 1 ≤ c := h.chunk_pos
  have hck : s.chunkSize = c := h.chunk_eq
  have hgap : s.loaded ≤ s.consumed + 2 * c := by
    have hw := h.wd_le
    rcases h.gap with hg | hg <;> omega
  have hcont := h.content s.consumed hsucc hgap
  unfold SlotOK capacity at hcont
  have hplt : s.consumed % (s.chunkSize * 2) < s.chunkSize * 2 := Nat.mod_lt _ (by omega)
  have hread : ∀ t : CharBuffer, t.chunkSize = s.chunkSize → t.consumed = s.consumed →
      t.left = s.left → t.right = s.right →
      t.readPosition s.position = Except.ok (full.getD s.consumed 0) := by
    intro t hx1 hx2 hx3 hx4
    unfold readPosition position capacity
    rw [hx1, hx2, hx3, hx4]
    rw [if_neg (by omega)]
    rcases Nat.lt_or_ge (s.consumed % (s.chunkSize * 2)) s.chunkSize with hh | hh
    · rw [if_pos hh] at hcont
      rw [if_pos hh, hcont]
    · rw [if_neg (not_lt.mpr hh)] at hcont
      rw [if_neg (not_lt.mpr hh), hcont]
  simp only [takeByte]
  rw [hbr, if_neg (by omega : ¬ s.loaded ≤ s.consumed)]
  rcases Nat.eq_zero_or_pos s.withdrawn with hw0 | hwpos
  · rw [if_neg (by omega : ¬ 0 < s.withdrawn), if_neg (by omega : ¬ 0 < s.withdrawn)]
    rw [hread s rfl rfl rfl rfl]
  · rw [if_pos hwpos, if_pos hwpos]
    rw [hread { s with withdrawn := s.withdrawn - 1 } rfl rfl rfl rfl]

/-- A successful `take_byte` that performs a genuine boundary refill. -/
theorem takeByte_load {full : List Nat} {c : Nat} {s : CharBuffer}
    (h : Inv full c s) (hlt : s.consumed < full.length)
    (hw0 : s.withdrawn = 0) (hb : s.position = 0 ∨ s.position = s.chunkSize)
    (hcl : s.consumed = s.loaded) :
    s.takeByte = (Except.ok (full.getD s.consumed 0),
      { chunkSize := s.loadChunk.2.chunkSize, source := s.loadChunk.2.source,
        left := s.loadChunk.2.left, right := s.loadChunk.2.right,
        consumed := s.loadChunk.2.consumed + 1,
        loaded := s.loadChunk.2.loaded + s.loadChunk.1,
        withdrawn := s.loadChunk.2.withdrawn }) ∧
    Inv full c
      { chunkSize := s.loadChunk.2.chunkSize, source := s.loadChunk.2.source,
        left := s.loadChunk.2.left, right := s.loadChunk.2.right,
        consumed := s.loadChunk.2.consumed + 1,
        loaded := s.loadChunk.2.loaded + s.loadChunk.1,
        withdrawn := s.loadChunk.2.withdrawn } := by
  have hc : 1 ≤ c := h.chunk_pos
  have hck : s.chunkSize = c := h.chunk_eq
  have hsrclen : s.source.length = full.length - s.loaded := by
    rw [h.src_eq, List.length_drop]
  have hLle := h.loaded_le
  have hn1 : 0 < min s.chunkSize s.source.length := by omega
  have hnle : min s.chunkSize s.source.length ≤ c := by omega
  have hfst : s.loadChunk.1 = min s.chunkSize s.source.length := loadChunk_fst s
  have hcontAll := postload_content h hcl hb
  have hcont := hcontAll s.consumed (by omega) (by omega)
  have hpe : s.position = s.loaded % (c * 2) := by
    unfold position capacity
    rw [hck, hcl]
  have hb2 : s.loaded % (c * 2) = 0 ∨ s.loaded % (c * 2) = c := by
    rcases hb with h0 | h0
    · left; rw [← hpe]; exact h0
    · right; rw [← hpe, h0]; exact hck
  have hdvd : s.loaded % c = 0 := (boundary_iff c s.loaded hc).mp hb2
  have hlen := loadChunk_len h
  have hplt : s.consumed % (s.chunkSize * 2) < s.chunkSize * 2 := Nat.mod_lt _ (by omega)
  have hlc : s.loadChunk.2.chunkSize = s.chunkSize := loadChunk_chunkSize s
  have hlcons : s.loadChunk.2.consumed = s.consumed := loadChunk_consumed s
  have hlload : s.loadChunk.2.loaded = s.loaded := loadChunk_loaded s
  have hlw : s.loadChunk.2.withdrawn = s.withdrawn := loadChunk_withdrawn s
  have hread : CharBuffer.readPosition
      { chunkSize := s.loadChunk.2.chunkSize, source := s.loadChunk.2.source,
        left := s.loadChunk.2.left, right := s.loadChunk.2.right,
        consumed := s.loadChunk.2.consumed,
        loaded := s.loadChunk.2.loaded + s.loadChunk.1,
        withdrawn := s.loadChunk.2.withdrawn } s.position =
      Except.ok (full.getD s.consumed 0) := by
    unfold SlotOK capacity at hcont
    unfold readPosition position capacity
    dsimp only
    rw [hlc] at hcont ⊢
    rw [hlcons]
    rw [if_neg (by omega)]
    rcases Nat.lt_or_ge (s.consumed % (s.chunkSize * 2)) s.chunkSize with hh | hh
    · rw [if_pos hh] at hcont
      rw [if_pos hh, hcont]
    · rw [if_neg (not_lt.mpr hh)] at hcont
      rw [if_neg (not_lt.mpr hh), hcont]
  have hcondT : s.withdrawn = 0 ∧ (s.position = 0 ∨ s.position = s.chunkSize) := ⟨hw0, hb⟩
  have hno : ¬ (s.loadChunk.2.loaded + s.loadChunk.1 ≤ s.loadChunk.2.consumed) := by
    rw [hlload, hlcons, hfst]
    omega
  have hnw : ¬ (0 < s.loadChunk.2.withdrawn) := by
    rw [hlw, hw0]
    omega
  constructor
  · simp only [takeByte]
    rw [if_pos hcondT]
    dsimp only
    rw [if_neg hno, if_neg hnw, hread]
  · refine ⟨?_, h.chunk_pos, ?_, ?_, ?_, ?_, ?_, ?_, ?_, ?_, ?_⟩
    · show s.loadChunk.2.chunkSize = c
      rw [hlc, hck]
    · show s.loadChunk.2.left.length = c
      exact hlen.1
    · show s.loadChunk.2.right.length = c
      exact hlen.2
    · show s.loadChunk.2.source = full.drop (s.loadChunk.2.loaded + s.loadChunk.1)
      rw [loadChunk_source, hlload, hfst, h.src_eq, List.drop_drop]
    · show s.loadChunk.2.loaded + s.loadChunk.1 ≤ full.length
      rw [hlload, hfst]
      omega
    · show s.loadChunk.2.consumed + 1 + s.loadChunk.2.withdrawn ≤
        s.loadChunk.2.loaded + s.loadChunk.1
      rw [hlcons, hlload, hlw, hfst, hw0]
      omega
    · show s.loadChunk.2.withdrawn ≤ c
      rw [hlw, hw0]
      omega
    · show s.loadChunk.2.loaded + s.loadChunk.1 + 1 ≤
          s.loadChunk.2.consumed + 1 + s.loadChunk.2.withdrawn + c ∨
        s.loadChunk.2.loaded + s.loadChunk.1 = s.loadChunk.2.consumed + 1 +
          s.loadChunk.2.withdrawn
      left
      rw [hlcons, hlload, hlw, hfst, hw0]
      omega
    · show (s.loadChunk.2.loaded + s.loadChunk.1) % c = 0 ∨
        s.loadChunk.2.loaded + s.loadChunk.1 = full.length
      rw [hlload, hfst]
      by_cases hfull : min s.chunkSize s.source.length = s.chunkSize
      · left
        rw [hfull, hck, Nat.add_mod_right]
        exact hdvd
      · right
        omega
    · intro i h1 h2
      have h1' : i < s.loadChunk.2.loaded + s.loadChunk.1 := h1
      have h2' : s.loadChunk.2.loaded + s.loadChunk.1 ≤ i + 2 * c := h2
      rw [hlload, hfst] at h1' h2'
      exact (slotOK_of_fields i rfl rfl rfl).mp (hcontAll i h1' h2')

/-- Full characterisation of a successful `take_byte`. -/
theorem takeByte_ok {full : List Nat} {c : Nat} {s : CharBuffer}
    (h : Inv full c s) (hlt : s.consumed < full.length) :
    s.takeByte.1 = Except.ok (full.getD s.consumed 0) ∧
    Inv full c s.takeByte.2 ∧
    s.takeByte.2.consumed = s.consumed + 1 ∧
    s.takeByte.2.withdrawn = s.withdrawn - 1 ∧
    s.takeByte.2.chunkSize = s.chunkSize ∧
    s.loaded ≤ s.takeByte.2.loaded ∧
    (0 < s.withdrawn →
      s.takeByte.2 = { s with consumed := s.consumed + 1, withdrawn := s.withdrawn - 1 }) := by
  have hc : 1 ≤ c := h.chunk_pos
  have hck : s.chunkSize = c := h.chunk_eq
  have hhw := h.hw_le
  by_cases hcond : s.withdrawn = 0 ∧ (s.position = 0 ∨ s.position = s.chunkSize)
  · rcases Nat.lt_or_ge s.consumed s.loaded with hsucc | hge
    · -- boundary reached with pre-loaded data still pending: refill is a no-op
      have hw0 := hcond.1
      have hb2 : s.consumed % (c * 2) = 0 ∨ s.consumed % (c * 2) = c := by
        have hpe : s.position = s.consumed % (c * 2) := by
          unfold position capacity
          rw [hck]
        rcases hcond.2 with h0 | h0
        · left; rw [← hpe]; exact h0
        · right; rw [← hpe, h0]; exact hck
      have hdvdc : s.consumed % c = 0 := (boundary_iff c s.consumed hc).mp hb2
      have hLd : s.loaded = full.length := by
        rcases h.mult with hm | hm
        · exfalso
          have hlt2 : s.loaded < s.consumed + c := by
            rcases h.gap with hg | hg <;> omega
          exact dvd_squeeze c s.consumed s.loaded hdvdc hm hsucc hlt2
        · exact hm
      have hsrc : s.source = [] := by
        rw [h.src_eq, hLd]
        exact List.drop_eq_nil_of_le (le_refl _)
      have hload0 : s.loadChunk = (0, s) := loadChunk_of_nil s hsrc
      have hbr : (if s.withdrawn = 0 ∧ (s.position = 0 ∨ s.position = s.chunkSize) then
          { s.loadChunk.2 with loaded := s.loadChunk.2.loaded + s.loadChunk.1 } else s) = s := by
        rw [if_pos hcond, hload0]
        rfl
      have heq := takeByte_noload h hsucc hbr
      rw [heq, if_neg (by omega : ¬ 0 < s.withdrawn)]
      have hBA : ({ s with consumed := s.consumed + 1 } : CharBuffer) =
          { s with consumed := s.consumed + 1, withdrawn := s.withdrawn - 1 } :=
        CharBuffer.ext rfl rfl rfl rfl rfl rfl (show s.withdrawn = s.withdrawn - 1 by omega)
      refine ⟨rfl, ?_, rfl, ?_, rfl, le_refl _, ?_⟩
      · rw [hBA]
        exact inv_advance h hsucc
      · show s.withdrawn = s.withdrawn - 1
        omega
      · intro hcon
        rw [hw0] at hcon
        exact absurd hcon (lt_irrefl 0)
    · -- genuine refill
      have hcl : s.consumed = s.loaded := Nat.le_antisymm (by omega) hge
      obtain ⟨heq, hinv⟩ := takeByte_load h hlt hcond.1 hcond.2 hcl
      rw [heq]
      refine ⟨rfl, hinv, ?_, ?_, ?_, ?_, ?_⟩
      · show s.loadChunk.2.consumed + 1 = s.consumed + 1
        rw [loadChunk_consumed]
      · show s.loadChunk.2.withdrawn = s.withdrawn - 1
        rw [loadChunk_withdrawn, hcond.1]
      · show s.loadChunk.2.chunkSize = s.chunkSize
        exact loadChunk_chunkSize s
      · show s.loaded ≤ s.loadChunk.2.loaded + s.loadChunk.1
        rw [loadChunk_loaded]
        omega
      · intro hcon
        rw [hcond.1] at hcon
        exact absurd hcon (lt_irrefl 0)
  · -- no refill attempted
    have hsucc : s.consumed < s.loaded := by
      rcases Nat.lt_or_ge s.consumed s.loaded with hs | hs
      · exact hs
      · exfalso
        rcases Nat.eq_zero_or_pos s.withdrawn with hw0 | hwp
        · have hcl : s.consumed = s.loaded := by omega
          rcases h.mult with hm | hm
          · have hdvdc : s.consumed % c = 0 := by rw [hcl]; exact hm
            have hb2 := (boundary_iff c s.consumed hc).mpr hdvdc
            apply hcond
            refine ⟨hw0, ?_⟩
            have hpe : s.position = s.consumed % (c * 2) := by
              unfold position capacity
              rw [hck]
            rcases hb2 with h0 | h0
            · left; rw [hpe]; exact h0
            · right; rw [hpe, h0]; exact hck.symm
          · omega
        · omega
    have heq := takeByte_noload h hsucc (if_neg hcond)
    rw [heq]
    rcases Nat.eq_zero_or_pos s.withdrawn with hw0 | hwp
    · rw [if_neg (by omega : ¬ 0 < s.withdrawn)]
      have hBA : ({ s with consumed := s.consumed + 1 } : CharBuffer) =
          { s with consumed := s.consumed + 1, withdrawn := s.withdrawn - 1 } :=
        CharBuffer.ext rfl rfl rfl rfl rfl rfl (show s.withdrawn = s.withdrawn - 1 by omega)
      refine ⟨rfl, ?_, rfl, ?_, rfl, le_refl _, ?_⟩
      · rw [hBA]
        exact inv_advance h hsucc
      · show s.withdrawn = s.withdrawn - 1
        omega
      · intro hcon
        rw [hw0] at hcon
        exact absurd hcon (lt_irrefl 0)
    · rw [if_pos hwp]
      exact ⟨rfl, inv_advance h hsucc, rfl, rfl, rfl, le_refl _, fun _ => rfl⟩

theorem takeByte_inv {full : List Nat} {c : Nat} {s : CharBuffer}
    (h : Inv full c s) : Inv full c s.takeByte.2 := by
  rcases Nat.lt_or_ge s.consumed full.length with hlt | hge
  · exact (takeByte_ok h hlt).2.1
  · rw [takeByte_eoi h hge]
    exact h

theorem takeChar_snd (s : CharBuffer) : s.takeChar.2 = s.takeByte.2 := by
  unfold takeChar
  rcases hby : s.takeByte with ⟨e | b, s'⟩
  · rfl
  · dsimp only
    split <;> rfl

theorem takeBackLoop_ok (m : Nat) : ∀ s : CharBuffer, s.withdrawn + m ≤ s.chunkSize →
    takeBackLoop m s = (Except.ok ((s.consumed - m) % (s.chunkSize * 2)),
      { s with consumed := s.consumed - m, withdrawn := s.withdrawn + m }) := by
  induction m with
  | zero =>
    intro s _
    rfl
  | succ k ih =>
    intro s h
    unfold takeBackLoop
    rw [if_neg (by omega)]
    rw [ih { s with consumed := s.consumed - 1, withdrawn := s.withdrawn + 1 }
      (show s.withdrawn + 1 + k ≤ s.chunkSize by omega)]
    simp only [Prod.mk.injEq]
    constructor
    · show Except.ok ((s.consumed - 1 - k) % (s.chunkSize * 2)) =
        Except.ok ((s.consumed - (k + 1)) % (s.chunkSize * 2))
      have he : s.consumed - 1 - k = s.consumed - (k + 1) := by omega
      rw [he]
    · exact CharBuffer.ext rfl rfl rfl rfl
        (show s.consumed - 1 - k = s.consumed - (k + 1) by omega) rfl
        (show s.withdrawn + 1 + k = s.withdrawn + (k + 1) by omega)

theorem takeBackLoop_fail (m : Nat) : ∀ s : CharBuffer,
    s.withdrawn ≤ s.chunkSize → s.chunkSize - s.withdrawn ≤ s.consumed →
    s.chunkSize < s.withdrawn + m →
    takeBackLoop m s = (Except.error IOErr.permissionDenied,
      { s with consumed := s.consumed - (s.chunkSize - s.withdrawn),
               withdrawn := s.chunkSize }) := by
  induction m with
  | zero =>
    intro s h1 h2 h3
    omega
  | succ k ih =>
    intro s h1 h2 h3
    unfold takeBackLoop
    by_cases hg : s.chunkSize < s.withdrawn + 1
    · rw [if_pos hg]
      have hrec : ({ s with consumed := s.consumed - (s.chunkSize - s.withdrawn),
                            withdrawn := s.chunkSize } : CharBuffer) = s :=
        CharBuffer.ext rfl rfl rfl rfl
          (show s.consumed - (s.chunkSize - s.withdrawn) = s.consumed by omega) rfl
          (show s.chunkSize = s.withdrawn by omega)
      rw [hrec]
    · rw [if_neg hg]
      rw [ih { s with consumed := s.consumed - 1, withdrawn := s.withdrawn + 1 }
        (show s.withdrawn + 1 ≤ s.chunkSize by omega)
        (show s.chunkSize - (s.withdrawn + 1) ≤ s.consumed - 1 by omega)
        (show s.chunkSize < s.withdrawn + 1 + k by omega)]
      simp only [Prod.mk.injEq]
      refine ⟨trivial, ?_⟩
      exact CharBuffer.ext rfl rfl rfl rfl
        (show s.consumed - 1 - (s.chunkSize - (s.withdrawn + 1)) =
          s.consumed - (s.chunkSize - s.withdrawn) by omega) rfl rfl

theorem takeBackLoop_frame (m : Nat) : ∀ s : CharBuffer,
    (takeBackLoop m s).2.source = s.source ∧ (takeBackLoop m s).2.loaded = s.loaded ∧
    (takeBackLoop m s).2.left = s.left ∧ (takeBackLoop m s).2.right = s.right ∧
    (takeBackLoop m s).2.chunkSize = s.chunkSize := by
  induction m with
  | zero =>
    intro s
    exact ⟨rfl, rfl, rfl, rfl, rfl⟩
  | succ k ih =>
    intro s
    unfold takeBackLoop
    split
    · exact ⟨rfl, rfl, rfl, rfl, rfl⟩
    · exact ih _

theorem takeBackLoop_inv {full : List Nat} {c : Nat} (m : Nat) :
    ∀ s : CharBuffer, Inv full c s → m ≤ s.consumed →
    Inv full c (takeBackLoop m s).2 := by
  induction m with
  | zero =>
    intro s h _
    exact h
  | succ k ih =>
    intro s h hm
    unfold takeBackLoop
    by_cases hg : s.chunkSize < s.withdrawn + 1
    · rw [if_pos hg]
      exact h
    · rw [if_neg hg]
      apply ih
      · have hck := h.chunk_eq
        have hhw := h.hw_le
        refine ⟨h.chunk_eq, h.chunk_pos, h.left_len, h.right_len, h.src_eq, h.loaded_le,
          ?_, ?_, ?_, h.mult, ?_⟩
        · show s.consumed - 1 + (s.withdrawn + 1) ≤ s.loaded
          omega
        · show s.withdrawn + 1 ≤ c
          omega
        · show s.loaded + 1 ≤ s.consumed - 1 + (s.withdrawn + 1) + c ∨
            s.loaded = s.consumed - 1 + (s.withdrawn + 1)
          rcases h.gap with hg2 | hg2
          · left; omega
          · right; omega
        · intro i h1 h2
          exact (slotOK_of_fields i rfl rfl rfl).mp (h.content i h1 h2)
      · show k ≤ s.consumed - 1
        omega

theorem takeBack_ok {s : CharBuffer} {a : Nat} (h1 : a ≤ s.consumed)
    (h2 : a ≤ s.chunkSize) (h3 : s.withdrawn + a ≤ s.chunkSize) :
    s.takeBack a = (Except.ok ((s.consumed - a) % (s.chunkSize * 2)),
      { s with consumed := s.consumed - a, withdrawn := s.withdrawn + a }) := by
  unfold takeBack
  rw [if_neg (by omega), if_neg (by omega)]
  exact takeBackLoop_ok a s h3

theorem takeBack_inv {full : List Nat} {c : Nat} {s : CharBuffer}
    (h : Inv full c s) (a : Nat) : Inv full c (s.takeBack a).2 := by
  unfold takeBack
  by_cases hc1 : s.consumed < a
  · rw [if_pos hc1]
    exact h
  · rw [if_neg hc1]
    by_cases hc2 : s.chunkSize < a
    · rw [if_pos hc2]
      exact h
    · rw [if_neg hc2]
      exact takeBackLoop_inv a s h (by omega)

theorem takeBack_frame (s : CharBuffer) (a : Nat) :
    (s.takeBack a).2.source = s.source ∧ (s.takeBack a).2.loaded = s.loaded ∧
    (s.takeBack a).2.left = s.left ∧ (s.takeBack a).2.right = s.right := by
  unfold takeBack
  split
  · exact ⟨rfl, rfl, rfl, rfl⟩
  · split
    · exact ⟨rfl, rfl, rfl, rfl⟩
    · have hfr := takeBackLoop_frame a s
      exact ⟨hfr.1, hfr.2.1, hfr.2.2.1, hfr.2.2.2.1⟩

theorem reachable_inv {full : List Nat} {c : Nat} {s : CharBuffer}
    (hc : 1 ≤ c) (h : Reachable full c s) : Inv full c s := by
  induction h with
  | base => exact inv_new full c hc
  | byteStep _ ih => exact takeByte_inv ih
  | charStep _ ih =>
    rw [takeChar_snd]
    exact takeByte_inv ih
  | backStep a _ ih => exact takeBack_inv ih a

theorem drop_eq_getD_cons {l : List Nat} {i : Nat} (h : i < l.length) :
    l.drop i = l.getD i 0 :: l.drop (i + 1) := by
  rw [List.getD_eq_getElem l 0 h]
  exact List.drop_eq_getElem_cons h

/-- Characterisation of `k` consecutive successful `take_byte` calls. -/
theorem takeN_ok {full : List Nat} {c : Nat} (k : Nat) :
    ∀ s : CharBuffer, Inv full c s → s.consumed + k ≤ full.length →
    (takeN k s).1 = ((full.drop s.consumed).take k).map Except.ok ∧
    Inv full c (takeN k s).2 ∧
    (takeN k s).2.consumed = s.consumed + k ∧
    (takeN k s).2.withdrawn = s.withdrawn - k ∧
    (takeN k s).2.chunkSize = s.chunkSize ∧
    s.loaded ≤ (takeN k s).2.loaded ∧
    (k ≤ s.withdrawn →
      (takeN k s).2 = { s with consumed := s.consumed + k, withdrawn := s.withdrawn - k }) := by
  induction k with
  | zero =>
    intro s h _
    refine ⟨rfl, h, rfl, rfl, rfl, le_refl _, ?_⟩
    intro _
    exact CharBuffer.ext rfl rfl rfl rfl (show s.consumed = s.consumed + 0 by omega) rfl
      (show s.withdrawn = s.withdrawn - 0 by omega)
  | succ k ih =>
    intro s h hk
    have hlt : s.consumed < full.length := by omega
    obtain ⟨hfst, hinv, hcons, hwd, hchunk, hload, hrec⟩ := takeByte_ok h hlt
    obtain ⟨ih1, ih2, ih3, ih4, ih5, ih6, ih7⟩ :=
      ih s.takeByte.2 hinv (by rw [hcons]; omega)
    refine ⟨?_, ih2, ?_, ?_, ?_, ?_, ?_⟩
    · show s.takeByte.1 :: (takeN k s.takeByte.2).1 =
        ((full.drop s.consumed).take (k + 1)).map Except.ok
      rw [drop_eq_getD_cons hlt, List.take_succ_cons, List.map_cons, hfst, ih1, hcons]
    · show (takeN k s.takeByte.2).2.consumed = s.consumed + (k + 1)
      rw [ih3, hcons]
      omega
    · show (takeN k s.takeByte.2).2.withdrawn = s.withdrawn - (k + 1)
      rw [ih4, hwd]
      omega
    · show (takeN k s.takeByte.2).2.chunkSize = s.chunkSize
      rw [ih5, hchunk]
    · show s.loaded ≤ (takeN k s.takeByte.2).2.loaded
      exact le_trans hload ih6
    · intro hkw
      have hw1 : 0 < s.withdrawn := by omega
      have hk' : k ≤ s.takeByte.2.withdrawn := by
        rw [hwd]
        omega
      have h7 := ih7 hk'
      show (takeN k s.takeByte.2).2 = _
      rw [h7, hrec hw1]
      exact CharBuffer.ext rfl rfl rfl rfl
        (show s.consumed + 1 + k = s.consumed + (k + 1) by omega) rfl
        (show s.withdrawn - 1 - k = s.withdrawn - (k + 1) by omega)

/-- If `k` calls all succeed then at least `k` bytes were still available. -/
theorem takeN_le {full : List Nat} {c : Nat} (k : Nat) :
    ∀ (s : CharBuffer) (bs : List Nat), Inv full c s →
    (takeN k s).1 = bs.map Except.ok → s.consumed + k ≤ full.length := by
  induction k with
  | zero =>
    intro s bs h _
    have h1 := h.hw_le
    have h2 := h.loaded_le
    omega
  | succ k ih =>
    intro s bs h hbs
    rcases bs with _ | ⟨b, bs'⟩
    · exact absurd hbs (by simp [takeN])
    · have hthis : s.takeByte.1 :: (takeN k s.takeByte.2).1 =
          Except.ok b :: bs'.map Except.ok := hbs
      injection hthis with h1 h2
      rcases Nat.lt_or_ge s.consumed full.length with hlt | hge
      · obtain ⟨hfst, hinv, hcons, _, _, _, _⟩ := takeByte_ok h hlt
        have hle := ih s.takeByte.2 bs' hinv h2
        rw [hcons] at hle
        omega
      · have heq := takeByte_eoi h hge
        rw [heq] at h1
        exact absurd h1 (by simp)

/-- From any invariant state, iterating `take_byte` first yields the remaining
stream bytes in order and then only `EndOfInput` failures. -/
theorem takeN_general {full : List Nat} {c : Nat} (n : Nat) :
    ∀ s : CharBuffer, Inv full c s →
    (takeN n s).1 =
      (((full.drop s.consumed).map Except.ok) ++
        List.replicate (n - (full.length - s.consumed))
          (Except.error IOErr.endOfInput)).take n := by
  induction n with
  | zero =>
    intro s _
    rfl
  | succ n ih =>
    intro s h
    rcases Nat.lt_or_ge s.consumed full.length with hlt | hge
    · obtain ⟨hfst, hinv, hcons, _, _, _, _⟩ := takeByte_ok h hlt
      show s.takeByte.1 :: (takeN n s.takeByte.2).1 = _
      rw [hfst, ih s.takeByte.2 hinv, hcons, drop_eq_getD_cons hlt, List.map_cons,
        List.cons_append, List.take_succ_cons]
      have hcount : n - (full.length - (s.consumed + 1)) =
          n + 1 - (full.length - s.consumed) := by omega
      rw [hcount]
    · have heq := takeByte_eoi h hge
      have hdrop : full.drop s.consumed = [] := List.drop_eq_nil_of_le hge
      have hz : full.length - s.consumed = 0 := by omega
      show s.takeByte.1 :: (takeN n s.takeByte.2).1 = _
      rw [heq]
      dsimp only
      rw [ih s h, hdrop, hz]
      simp [List.take_replicate, List.replicate_succ]

/-- Claim C1: for every chunk size at least 1 and every finite byte source,
iterating `take_byte` on a freshly constructed buffer returns exactly the
source's bytes in stream order, and from the call right after the last byte
onwards every call fails with `EndOfInput` (so the first `EndOfInput` occurs
exactly after all `full.length` bytes have been returned). -/
theorem C1_takeByte_enumerates_source (full : List Nat) (c : Nat) (hc : 1 ≤ c) (n : Nat) :
    (takeN n (CharBuffer.new full c)).1 =
      ((full.map Except.ok) ++
        List.replicate (n - full.length) (Except.error IOErr.endOfInput)).take n := by
  have h := takeN_general n (CharBuffer.new full c) (inv_new full c hc)
  simpa [CharBuffer.new] using h

theorem C1_takeByte_enumerates_source_witness :
    1 ≤ 2 ∧
    (takeN 5 (CharBuffer.new [5, 6, 7] 2)).1 =
      (([5, 6, 7].map Except.ok) ++
        List.replicate (5 - [5, 6, 7].length) (Except.error IOErr.endOfInput)).take 5 :=
  ⟨by decide, C1_takeByte_enumerates_source [5, 6, 7] 2 (by decide) 5⟩

/-- Claim C2: round-trip law.  From any reachable state, after consuming
`k ≤ chunk_size` bytes, `take_back k` succeeds, returns the position the buffer
had before those `k` consumes, and re-consuming `k` bytes yields the same bytes
again, all without touching the source (neither `take_back` nor the re-consume
reads it: `source` and `loaded` stay unchanged). -/
theorem C2_round_trip (full : List Nat) (c : Nat) (s : CharBuffer) (k : Nat) (bs : List Nat)
    (hc : 1 ≤ c) (hs : Reachable full c s) (hk : k ≤ c)
    (h1 : (takeN k s).1 = bs.map Except.ok) :
    (takeBack (takeN k s).2 k).1 = Except.ok s.position ∧
    (takeBack (takeN k s).2 k).2.source = (takeN k s).2.source ∧
    (takeBack (takeN k s).2 k).2.loaded = (takeN k s).2.loaded ∧
    (takeN k (takeBack (takeN k s).2 k).2).1 = bs.map Except.ok ∧
    (takeN k (takeBack (takeN k s).2 k).2).2.source = (takeN k s).2.source ∧
    (takeN k (takeBack (takeN k s).2 k).2).2.loaded = (takeN k s).2.loaded := by
  have h := reachable_inv hc hs
  have hle := takeN_le k s bs h h1
  obtain ⟨hl1, hinv1, hcons1, hwd1, hchunk1, hload1, _⟩ := takeN_ok k s h hle
  have hmap : bs.map (Except.ok : Nat → Except IOErr Nat) =
      ((full.drop s.consumed).take k).map Except.ok := by
    rw [← h1, hl1]
  have hwle := h.wd_le
  have hback := takeBack_ok (s := (takeN k s).2) (a := k)
    (by rw [hcons1]; omega)
    (by rw [hchunk1, h.chunk_eq]; exact hk)
    (by rw [hwd1, hchunk1, h.chunk_eq]; omega)
  have hinvb := takeBack_inv hinv1 k
  have hconsb : (takeBack (takeN k s).2 k).2.consumed = s.consumed := by
    rw [hback]
    show (takeN k s).2.consumed - k = s.consumed
    rw [hcons1]
    omega
  have hwdb : k ≤ (takeBack (takeN k s).2 k).2.withdrawn := by
    rw [hback]
    show k ≤ (takeN k s).2.withdrawn + k
    omega
  have hsrcb : (takeBack (takeN k s).2 k).2.source = (takeN k s).2.source := by
    rw [hback]
  have hloadb : (takeBack (takeN k s).2 k).2.loaded = (takeN k s).2.loaded := by
    rw [hback]
  obtain ⟨hl2, _, _, _, _, _, hrec2⟩ :=
    takeN_ok k (takeBack (takeN k s).2 k).2 hinvb (by rw [hconsb]; exact hle)
  rw [hconsb] at hl2
  refine ⟨?_, hsrcb, hloadb, ?_, ?_, ?_⟩
  · rw [hback]
    show Except.ok (((takeN k s).2.consumed - k) % ((takeN k s).2.chunkSize * 2)) =
      Except.ok s.position
    rw [hcons1, hchunk1]
    have he : s.consumed + k - k = s.consumed := by omega
    rw [he]
    rfl
  · rw [hl2]
    exact hmap.symm
  · rw [hrec2 hwdb]
    exact hsrcb
  · rw [hrec2 hwdb]
    exact hloadb

theorem C2_round_trip_witness :
    (1 ≤ 2 ∧ 2 ≤ 2 ∧
      (takeN 2 (CharBuffer.new [1, 2, 3, 4] 2)).1 = [1, 2].map Except.ok) ∧
    (takeBack (takeN 2 (CharBuffer.new [1, 2, 3, 4] 2)).2 2).1 =
      Except.ok (CharBuffer.new [1, 2, 3, 4] 2).position ∧
    (takeBack (takeN 2 (CharBuffer.new [1, 2, 3, 4] 2)).2 2).2.source =
      (takeN 2 (CharBuffer.new [1, 2, 3, 4] 2)).2.source ∧
    (takeBack (takeN 2 (CharBuffer.new [1, 2, 3, 4] 2)).2 2).2.loaded =
      (takeN 2 (CharBuffer.new [1, 2, 3, 4] 2)).2.loaded ∧
    (takeN 2 (takeBack (takeN 2 (CharBuffer.new [1, 2, 3, 4] 2)).2 2).2).1 =
      [1, 2].map Except.ok ∧
    (takeN 2 (takeBack (takeN 2 (CharBuffer.new [1, 2, 3, 4] 2)).2 2).2).2.source =
      (takeN 2 (CharBuffer.new [1, 2, 3, 4] 2)).2.source ∧
    (takeN 2 (takeBack (takeN 2 (CharBuffer.new [1, 2, 3, 4] 2)).2 2).2).2.loaded =
      (takeN 2 (CharBuffer.new [1, 2, 3, 4] 2)).2.loaded :=
  ⟨⟨by decide, by decide, by decide⟩,
    C2_round_trip [1, 2, 3, 4] 2 (CharBuffer.new [1, 2, 3, 4] 2) 2 [1, 2]
      (by decide) Reachable.base (by decide) (by decide)⟩

/-- Claim C3 (counterexample): the original claim states that immediately after
construction the buffer's position equals the capacity; in the code
`position()` computes `consumed % capacity`, which is `0` right after `new`,
never `capacity`. -/
theorem C3_position_counterexample :
    ¬ ((CharBuffer.new [] 1).position = (CharBuffer.new [] 1).capacity) := by
  decide

/-- Claim C3 (amended): immediately after `new(source, chunk_size)` with
`chunk_size ≥ 1` the buffer's position is `0` (there is no stored position
field or sentinel: `position()` computes `consumed % capacity` and `consumed`
starts at `0`; the initial refill is instead triggered by `position = 0` with
`withdrawn = 0`), while `consumed = 0`, `loaded = 0` and `withdrawn = 0`; and
for every buffer state with `chunkSize ≥ 1` the invariant
`0 ≤ position < capacity` holds. -/
theorem C3_initial_state (full : List Nat) (c : Nat) (t : CharBuffer)
    (hc : 1 ≤ c) (ht : 1 ≤ t.chunkSize) :
    (CharBuffer.new full c).position = 0 ∧
    (CharBuffer.new full c).consumed = 0 ∧
    (CharBuffer.new full c).loaded = 0 ∧
    (CharBuffer.new full c).withdrawn = 0 ∧
    t.position < t.capacity := by
  refine ⟨?_, rfl, rfl, rfl, ?_⟩
  · show (CharBuffer.new full c).consumed % (CharBuffer.new full c).capacity = 0
    simp [CharBuffer.new]
  · show t.consumed % t.capacity < t.capacity
    apply Nat.mod_lt
    show 0 < t.chunkSize * 2
    omega

theorem C3_initial_state_witness :
    (1 ≤ 1 ∧ 1 ≤ (CharBuffer.new [] 1).chunkSize) ∧
    ((CharBuffer.new [] 1).position = 0 ∧ (CharBuffer.new [] 1).consumed = 0 ∧
      (CharBuffer.new [] 1).loaded = 0 ∧ (CharBuffer.new [] 1).withdrawn = 0 ∧
      (CharBuffer.new [] 1).position < (CharBuffer.new [] 1).capacity) :=
  ⟨⟨by decide, by decide⟩,
    C3_initial_state [] 1 (CharBuffer.new [] 1) (by decide) (by decide)⟩

/-- Claim C4: in every state reachable from a freshly constructed buffer by any
sequence of `take_byte`, `take_char` and `take_back` calls (successful or
failing), `withdrawn ≤ chunk_size` holds. -/
theorem C4_withdrawn_bound (full : List Nat) (c : Nat) (s : CharBuffer)
    (hc : 1 ≤ c) (hs : Reachable full c s) :
    s.withdrawn ≤ s.chunkSize := by
  have h := reachable_inv hc hs
  rw [h.chunk_eq]
  exact h.wd_le

theorem C4_withdrawn_bound_witness :
    1 ≤ 1 ∧ (CharBuffer.new [] 1).withdrawn ≤ (CharBuffer.new [] 1).chunkSize :=
  ⟨by decide, C4_withdrawn_bound [] 1 _ (by decide) Reachable.base⟩

/-- Claim C5: when `take_back(amount)` passes both up-front checks but the
per-step `withdrawn + 1 > chunk_size` bound trips part-way, it fails with
`PermissionDenied` and the already-applied steps stay in effect: exactly
`chunk_size - withdrawn` steps completed, so `consumed` has dropped by
`chunk_size - withdrawn` and `withdrawn` has been driven up to `chunk_size`,
with no rollback. -/
theorem C5_partial_rewind (full : List Nat) (c : Nat) (s : CharBuffer) (a : Nat)
    (hc : 1 ≤ c) (hs : Reachable full c s)
    (h1 : a ≤ s.consumed) (h2 : a ≤ s.chunkSize) (h3 : s.chunkSize < s.withdrawn + a) :
    s.takeBack a = (Except.error IOErr.permissionDenied,
      { s with consumed := s.consumed - (s.chunkSize - s.withdrawn),
               withdrawn := s.chunkSize }) := by
  have h := reachable_inv hc hs
  have hw : s.withdrawn ≤ s.chunkSize := by
    rw [h.chunk_eq]
    exact h.wd_le
  unfold takeBack
  rw [if_neg (by omega), if_neg (by omega)]
  exact takeBackLoop_fail a s hw (by omega) h3

theorem C5_partial_rewind_witness :
    (1 ≤ 1 ∧
      1 ≤ ((CharBuffer.new [1, 2] 1).takeByte.2.takeByte.2.takeBack 1).2.consumed ∧
      1 ≤ ((CharBuffer.new [1, 2] 1).takeByte.2.takeByte.2.takeBack 1).2.chunkSize ∧
      ((CharBuffer.new [1, 2] 1).takeByte.2.takeByte.2.takeBack 1).2.chunkSize <
        ((CharBuffer.new [1, 2] 1).takeByte.2.takeByte.2.takeBack 1).2.withdrawn + 1) ∧
    ((CharBuffer.new [1, 2] 1).takeByte.2.takeByte.2.takeBack 1).2.takeBack 1 =
      (Except.error IOErr.permissionDenied,
        { ((CharBuffer.new [1, 2] 1).takeByte.2.takeByte.2.takeBack 1).2 with
            consumed :=
              ((CharBuffer.new [1, 2] 1).takeByte.2.takeByte.2.takeBack 1).2.consumed -
                (((CharBuffer.new [1, 2] 1).takeByte.2.takeByte.2.takeBack 1).2.chunkSize -
                  ((CharBuffer.new [1, 2] 1).takeByte.2.takeByte.2.takeBack 1).2.withdrawn),
            withdrawn :=
              ((CharBuffer.new [1, 2] 1).takeByte.2.takeByte.2.takeBack 1).2.chunkSize }) :=
  ⟨⟨by decide, by decide, by decide, by decide⟩,
    C5_partial_rewind [1, 2] 1 _ 1 (by decide)
      (Reachable.backStep 1 (Reachable.byteStep (Reachable.byteStep Reachable.base)))
      (by decide) (by decide) (by decide)⟩

/-- Claim C6: `take_back(amount)` with `amount > chunk_size` fails with
`PermissionDenied` regardless of how much was consumed, and with
`amount > consumed` it also fails with `PermissionDenied`; both checks run
before any mutation, so the whole state is returned unchanged. -/
theorem C6_takeBack_guards (s : CharBuffer) (a : Nat)
    (h : s.chunkSize < a ∨ s.consumed < a) :
    s.takeBack a = (Except.error IOErr.permissionDenied, s) := by
  unfold takeBack
  by_cases h1 : s.consumed < a
  · rw [if_pos h1]
  · rcases h with h2 | h2
    · rw [if_neg h1, if_pos h2]
    · exact absurd h2 h1

theorem C6_takeBack_guards_witness :
    ((CharBuffer.new [] 1).chunkSize < 2 ∨ (CharBuffer.new [] 1).consumed < 2) ∧
    (CharBuffer.new [] 1).takeBack 2 =
      (Except.error IOErr.permissionDenied, CharBuffer.new [] 1) :=
  ⟨by decide, C6_takeBack_guards (CharBuffer.new [] 1) 2 (by decide)⟩

/-- Claim C7: when the next stream byte has its high bit set (value ≥ 0x80),
`take_char` fails with `InvalidInput` while `take_byte` at the same offset
succeeds with the raw byte; on the `take_char` failure the byte still counts as
consumed (`consumed` is incremented, `withdrawn` decremented if positive),
exactly as after a successful `take_byte`. -/
theorem C7_non_ascii (full : List Nat) (c : Nat) (s : CharBuffer)
    (hc : 1 ≤ c) (hs : Reachable full c s)
    (h1 : s.consumed < full.length) (h2 : 128 ≤ full.getD s.consumed 0) :
    s.takeChar.1 = Except.error IOErr.invalidInput ∧
    s.takeByte.1 = Except.ok (full.getD s.consumed 0) ∧
    s.takeChar.2 = s.takeByte.2 ∧
    s.takeChar.2.consumed = s.consumed + 1 ∧
    s.takeChar.2.withdrawn = s.withdrawn - 1 := by
  have h := reachable_inv hc hs
  obtain ⟨hfst, _, hcons, hwd, _, _, _⟩ := takeByte_ok h h1
  have hpair : s.takeByte = (Except.ok (full.getD s.consumed 0), s.takeByte.2) := by
    rw [← hfst]
  have hchar : s.takeChar = (Except.error IOErr.invalidInput, s.takeByte.2) := by
    unfold takeChar
    rw [hpair]
    dsimp only
    rw [if_neg (by omega)]
  refine ⟨by rw [hchar], hfst, by rw [hchar], ?_, ?_⟩
  · rw [hchar]
    exact hcons
  · rw [hchar]
    exact hwd

theorem C7_non_ascii_witness :
    (1 ≤ 1 ∧ (CharBuffer.new [200] 1).consumed < [200].length ∧
      128 ≤ [200].getD (CharBuffer.new [200] 1).consumed 0) ∧
    ((CharBuffer.new [200] 1).takeChar.1 = Except.error IOErr.invalidInput ∧
      (CharBuffer.new [200] 1).takeByte.1 =
        Except.ok ([200].getD (CharBuffer.new [200] 1).consumed 0) ∧
      (CharBuffer.new [200] 1).takeChar.2 = (CharBuffer.new [200] 1).takeByte.2 ∧
      (CharBuffer.new [200] 1).takeChar.2.consumed = (CharBuffer.new [200] 1).consumed + 1 ∧
      (CharBuffer.new [200] 1).takeChar.2.withdrawn =
        (CharBuffer.new [200] 1).withdrawn - 1) :=
  ⟨⟨by decide, by decide, by decide⟩,
    C7_non_ascii [200] 1 _ (by decide) Reachable.base (by decide) (by decide)⟩

/-- Claim C8: whenever `take_byte` fails with `EndOfInput` the state is left
completely unchanged, and the failure is transient: the buffer still accepts
`take_back k` for every `k ≤ min(consumed, chunk_size)` and then re-delivers
those `k` previously consumed bytes. -/
theorem C8_eoi_transient (full : List Nat) (c : Nat) (s : CharBuffer) (k : Nat)
    (hc : 1 ≤ c) (hs : Reachable full c s)
    (h1 : s.takeByte.1 = Except.error IOErr.endOfInput)
    (hk1 : k ≤ s.consumed) (hk2 : k ≤ s.chunkSize) :
    s.takeByte.2 = s ∧
    (s.takeBack k).1 = Except.ok ((s.consumed - k) % s.capacity) ∧
    (s.takeBack k).2 = { s with consumed := s.consumed - k, withdrawn := s.withdrawn + k } ∧
    (takeN k (s.takeBack k).2).1 = ((full.drop (s.consumed - k)).take k).map Except.ok := by
  have h := reachable_inv hc hs
  have hge : full.length ≤ s.consumed := by
    by_contra hcon
    push_neg at hcon
    obtain ⟨hfst, _, _, _, _, _, _⟩ := takeByte_ok h hcon
    rw [hfst] at h1
    exact absurd h1 (by simp)
  have heq := takeByte_eoi h hge
  have hhw := h.hw_le
  have hLle := h.loaded_le
  have hw0 : s.withdrawn = 0 := by omega
  have hback := takeBack_ok (s := s) (a := k) hk1 hk2 (by omega)
  have hinvb := takeBack_inv h k
  have hconsb : (s.takeBack k).2.consumed = s.consumed - k := by rw [hback]
  obtain ⟨hl2, _, _, _, _, _, _⟩ :=
    takeN_ok k (s.takeBack k).2 hinvb (by rw [hconsb]; omega)
  refine ⟨by rw [heq], ?_, by rw [hback], ?_⟩
  · rw [hback]
    rfl
  · rw [hl2, hconsb]

theorem C8_eoi_transient_witness :
    (1 ≤ 1 ∧
      (CharBuffer.new [7] 1).takeByte.2.takeByte.1 = Except.error IOErr.endOfInput ∧
      1 ≤ (CharBuffer.new [7] 1).takeByte.2.consumed ∧
      1 ≤ (CharBuffer.new [7] 1).takeByte.2.chunkSize) ∧
    ((CharBuffer.new [7] 1).takeByte.2.takeByte.2 = (CharBuffer.new [7] 1).takeByte.2 ∧
      ((CharBuffer.new [7] 1).takeByte.2.takeBack 1).1 =
        Except.ok (((CharBuffer.new [7] 1).takeByte.2.consumed - 1) %
          (CharBuffer.new [7] 1).takeByte.2.capacity) ∧
      ((CharBuffer.new [7] 1).takeByte.2.takeBack 1).2 =
        { (CharBuffer.new [7] 1).takeByte.2 with
            consumed := (CharBuffer.new [7] 1).takeByte.2.consumed - 1,
            withdrawn := (CharBuffer.new [7] 1).takeByte.2.withdrawn + 1 } ∧
      (takeN 1 ((CharBuffer.new [7] 1).takeByte.2.takeBack 1).2).1 =
        (([7].drop ((CharBuffer.new [7] 1).takeByte.2.consumed - 1)).take 1).map
          Except.ok) :=
  ⟨⟨by decide, by decide, by decide, by decide⟩,
    C8_eoi_transient [7] 1 _ 1 (by decide) (Reachable.byteStep Reachable.base)
      (by decide) (by decide) (by decide)⟩

/-- Frame behaviour of a single `take_byte` call on the source side. -/
theorem takeByte_frame (s : CharBuffer) :
    if s.withdrawn = 0 ∧ (s.position = 0 ∨ s.position = s.chunkSize) then
      s.takeByte.2.source = s.source.drop (min s.chunkSize s.source.length) ∧
      s.takeByte.2.loaded = s.loaded + min s.chunkSize s.source.length
    else
      s.takeByte.2.source = s.source ∧ s.takeByte.2.loaded = s.loaded ∧
      s.takeByte.2.left = s.left ∧ s.takeByte.2.right = s.right := by
  by_cases hcond : s.withdrawn = 0 ∧ (s.position = 0 ∨ s.position = s.chunkSize)
  · simp only [takeByte]
    simp only [if_pos hcond]
    have hA : s.loadChunk.2.source = s.source.drop (min s.chunkSize s.source.length) :=
      loadChunk_source s
    have hB : s.loadChunk.2.loaded + s.loadChunk.1 =
        s.loaded + min s.chunkSize s.source.length := by
      rw [loadChunk_loaded, loadChunk_fst]
    repeat' split
    all_goals exact ⟨hA, hB⟩
  · simp only [takeByte]
    simp only [if_neg hcond]
    repeat' split
    all_goals exact ⟨rfl, rfl, rfl, rfl⟩

/-- Claim C9: frame property on the source.  A single `take_byte` performs at
most one source read, of up to `chunk_size` bytes, and only when the cursor is
at a half boundary (`position` is `0` or `chunk_size`) with `withdrawn = 0`;
in every other case the source, the load count and both chunks are untouched.
`take_back` never reads the source or touches the chunks. -/
theorem C9_frame_property (s : CharBuffer) (a : Nat) :
    (if s.withdrawn = 0 ∧ (s.position = 0 ∨ s.position = s.chunkSize) then
      s.takeByte.2.source = s.source.drop (min s.chunkSize s.source.length) ∧
      s.takeByte.2.loaded = s.loaded + min s.chunkSize s.source.length
    else
      s.takeByte.2.source = s.source ∧ s.takeByte.2.loaded = s.loaded ∧
      s.takeByte.2.left = s.left ∧ s.takeByte.2.right = s.right) ∧
    (s.takeBack a).2.source = s.source ∧ (s.takeBack a).2.loaded = s.loaded ∧
    (s.takeBack a).2.left = s.left ∧ (s.takeBack a).2.right = s.right :=
  ⟨takeByte_frame s, takeBack_frame s a⟩

/-- Claim C10: in every reachable state the chunk indexing done by `take_byte`
is in bounds, unconditionally: the position is below `capacity` (so the
out-of-range `NotFound` branch of `read_position` can never fire for the
position `take_byte` passes it), and in both the pre-call chunks and the
chunks actually read on the success path (the refilled pair, which is the
post-state's chunk pair) the left half is indexed only below its length and
the right half only at `position % chunk_size`, below its length.
Consequently `take_byte` never fails with `NotFound`; a failing call can only
report `EndOfInput`. -/
theorem C10_takeByte_safety (full : List Nat) (c : Nat) (s : CharBuffer) (e : IOErr)
    (hc : 1 ≤ c) (hs : Reachable full c s) :
    s.position < s.capacity ∧
    (s.position < s.chunkSize → s.position < s.left.length) ∧
    (s.chunkSize ≤ s.position → s.position % s.chunkSize < s.right.length) ∧
    (s.position < s.chunkSize → s.position < s.takeByte.2.left.length) ∧
    (s.chunkSize ≤ s.position → s.position % s.chunkSize < s.takeByte.2.right.length) ∧
    s.takeByte.1 ≠ Except.error IOErr.notFound ∧
    (s.takeByte.1 = Except.error e → e = IOErr.endOfInput) := by
  have h := reachable_inv hc hs
  have hck := h.chunk_eq
  have hcp := h.chunk_pos
  have hll := h.left_len
  have hrl := h.right_len
  have hinv2 := takeByte_inv h
  have hll2 := hinv2.left_len
  have hrl2 := hinv2.right_len
  have herr : ∀ x : IOErr, s.takeByte.1 = Except.error x → x = IOErr.endOfInput := by
    intro x hx
    rcases Nat.lt_or_ge s.consumed full.length with hlt | hge
    · obtain ⟨hfst, _, _, _, _, _, _⟩ := takeByte_ok h hlt
      rw [hfst] at hx
      exact absurd hx (by simp)
    · have heq := takeByte_eoi h hge
      rw [heq] at hx
      have hpair : (Except.error IOErr.endOfInput : Except IOErr Nat) = Except.error x := hx
      injection hpair with hval
      exact hval.symm
  refine ⟨?_, ?_, ?_, ?_, ?_, ?_, herr e⟩
  · show s.consumed % s.capacity < s.capacity
    apply Nat.mod_lt
    show 0 < s.chunkSize * 2
    omega
  · intro hp
    omega
  · intro hp
    have hmlt : s.position % s.chunkSize < s.chunkSize := Nat.mod_lt _ (by omega)
    omega
  · intro hp
    omega
  · intro hp
    have hmlt : s.position % s.chunkSize < s.chunkSize := Nat.mod_lt _ (by omega)
    omega
  · intro hne
    exact absurd (herr _ hne) (by decide)

theorem C10_takeByte_safety_witness :
    1 ≤ 1 ∧
    ((CharBuffer.new [] 1).position < (CharBuffer.new [] 1).capacity ∧
      ((CharBuffer.new [] 1).position < (CharBuffer.new [] 1).chunkSize →
        (CharBuffer.new [] 1).position < (CharBuffer.new [] 1).left.length) ∧
      ((CharBuffer.new [] 1).chunkSize ≤ (CharBuffer.new [] 1).position →
        (CharBuffer.new [] 1).position % (CharBuffer.new [] 1).chunkSize <
          (CharBuffer.new [] 1).right.length) ∧
      ((CharBuffer.new [] 1).position < (CharBuffer.new [] 1).chunkSize →
        (CharBuffer.new [] 1).position < (CharBuffer.new [] 1).takeByte.2.left.length) ∧
      ((CharBuffer.new [] 1).chunkSize ≤ (CharBuffer.new [] 1).position →
        (CharBuffer.new [] 1).position % (CharBuffer.new [] 1).chunkSize <
          (CharBuffer.new [] 1).takeByte.2.right.length) ∧
      (CharBuffer.new [] 1).takeByte.1 ≠ Except.error IOErr.notFound ∧
      ((CharBuffer.new [] 1).takeByte.1 = Except.error IOErr.endOfInput →
        IOErr.endOfInput = IOErr.endOfInput)) :=
  ⟨by decide,
    C10_takeByte_safety [] 1 _ IOErr.endOfInput (by decide) Reachable.base⟩

end SysprogCompiler
